import Mathlib

set_option maxHeartbeats 1000000
set_option maxRecDepth 4096

/-!
Shallow embedding of the incremental document-indexing and retrieval pipeline
implemented by class `CardiologyVectorDB` in `cardiology_vector_db.py`.

Text is modelled as `List Char`.  External collaborators (the embedding model,
PDF text extraction, the MD5 digest, path normalisation and the vector-store
search engine) are opaque functions carried in an `Env` record; the mutable
state of the handler (the ledger file on disk, the Milvus collection contents
and its loaded flag) is an explicit `DBState` record threaded through the
operations.  Fallible external calls are modelled with `Except` values or
explicit failure flags; a Python `try`/`except` that swallows the error
becomes the corresponding branch of the Lean definition.
-/

/- ------------------------------------------------------------------ -/
/- Chunker: `CardiologyVectorDB.chunk_text` (lines 214-244).          -/
/- ------------------------------------------------------------------ -/

/-- Whitespace test matching Python's `\s` on the ASCII whitespace characters. -/
def isWS (c : Char) : Bool :=
  c = ' ' || c = '\t' || c = '\n' || c = '\r' || c = '\x0b' || c = '\x0c'

/-- Helper for `collapseWS`: the flag records whether the previous character
belonged to a whitespace run (so the run's later characters are dropped). -/
def collapseAux : Bool → List Char → List Char
  | _, [] => []
  | prevWS, c :: rest =>
    if isWS c then
      if prevWS then collapseAux true rest
      else ' ' :: collapseAux true rest
    else c :: collapseAux false rest

/-- `re.sub(r'\s+', ' ', text)`: every maximal run of whitespace becomes one space. -/
def collapseWS (l : List Char) : List Char :=
  collapseAux false l

/-- Python `str.strip()`: drop whitespace from both ends. -/
def stripList (l : List Char) : List Char :=
  ((l.dropWhile isWS).reverse.dropWhile isWS).reverse

/-- `re.sub(r'\s+', ' ', text).strip()`, the normalisation performed at the
top of `chunk_text`. -/
def normalizeText (l : List Char) : List Char :=
  stripList (collapseWS l)

/-- Helper for `rfindIn`: scan indices `stop-1, stop-2, ...` down, returning
the first (hence largest) index `k ≥ start` with `t.get? k = some c`. -/
def rfindAux (t : List Char) (c : Char) (start : Nat) : Nat → Option Nat
  | 0 => none
  | k + 1 =>
    if start ≤ k ∧ t.get? k = some c then some k else rfindAux t c start k

/-- Python `text.rfind(c, start, stop)`: the largest index `i` with
`start ≤ i < stop` and `text[i] = c`, as an `Option` (Python returns `-1`
when there is none, which the call sites treat exactly like this `none`). -/
def rfindIn (t : List Char) (c : Char) (start stop : Nat) : Option Nat :=
  rfindAux t c start stop

/-- Python slice `text[start:stop]` (both bounds clamped to the length). -/
def sliceL (t : List Char) (start stop : Nat) : List Char :=
  (t.take stop).drop start

/-- The word-boundary branch of `chunk_text`: look for the last space beyond
half the chunk size, else keep the raw offset `end0`. -/
def wordCut (t : List Char) (cs start end0 : Nat) : Nat :=
  match rfindIn t ' ' start end0 with
  | some we => if start + cs / 2 < we then we else end0
  | none => end0

/-- The boundary search of one `chunk_text` loop iteration: sentence
terminator beyond the midpoint first, then a space beyond the midpoint,
else the hard cut at `start + cs`.  Performed only when the window end
is strictly inside the text. -/
def cutEnd (t : List Char) (cs start : Nat) : Nat :=
  if start + cs < t.length then
    match rfindIn t '.' start (start + cs) with
    | some se =>
      if start + cs / 2 < se then se + 1 else wordCut t cs start (start + cs)
    | none => wordCut t cs start (start + cs)
  else start + cs

/-- The `while start < len(text)` loop of `chunk_text`.  `fuel` bounds the
number of iterations; `chunk_text` passes `t.length + 1`, which is enough
for every terminating run of the Python loop since each iteration moves
`start` strictly forward whenever `overlap ≤ cs / 2` (and for the bound
theorems below the produced chunks are correct for any fuel). -/
def chunkLoop (t : List Char) (cs ov : Nat) : Nat → Nat → List (List Char)
  | 0, _ => []
  | fuel + 1, start =>
    if start < t.length then
      let e := cutEnd t cs start
      stripList (sliceL t start e) ::
        chunkLoop t cs ov fuel (if e < t.length then e - ov else e)
    else []

/-- `CardiologyVectorDB.chunk_text(text, chunk_size, overlap)`. -/
def chunk_text (text : List Char) (cs ov : Nat) : List (List Char) :=
  let t := normalizeText text
  if t.length ≤ cs then [t]
  else chunkLoop t cs ov (t.length + 1) 0

/- ------------------------------------------------------------------ -/
/- Data model of the handler state and its external collaborators.    -/
/- ------------------------------------------------------------------ -/

/-- A file on disk: its byte content and its `st_mtime` attribute. -/
structure FileInfo where
  bytes : List Nat
  mtime : Int
deriving DecidableEq, Repr

/-- One ledger entry of `index_metadata.json` (`processed_files[abs_path]`). -/
structure FileEntry where
  file_hash : String
  chunk_count : Nat
  processed_date : String
  file_size : Nat
deriving DecidableEq, Repr

/-- The `collection_stats` snapshot stored in the metadata file. -/
structure Stats where
  total_entities : Nat
deriving DecidableEq, Repr

/-- The parsed content of `index_metadata.json`. -/
structure Metadata where
  processed_files : List (String × FileEntry)
  collection_stats : Option Stats
deriving DecidableEq, Repr

/-- The ledger file on disk: absent, unparseable, or holding valid metadata. -/
inductive LedgerFile where
  | missing : LedgerFile
  | corrupt : LedgerFile
  | stored : Metadata → LedgerFile
deriving DecidableEq, Repr

/-- One row of the Milvus collection (the Python code builds the columns
`texts, embeddings, sources, page_nums, chunk_ids`; a row-wise view of the
same batch). -/
structure Row where
  text : List Char
  embedding : List Rat
  source : String
  page_num : Nat
  chunk_id : Nat
deriving DecidableEq, Repr

/-- A raw hit returned by the external vector engine's `search`. -/
structure SearchHit where
  text : List Char
  source : String
  page_num : Nat
  chunk_id : Nat
  distance : Rat
deriving DecidableEq, Repr

/-- A formatted result dict built by `search_similar_documents`. -/
structure SearchResult where
  text : List Char
  source : String
  page_num : Nat
  chunk_id : Nat
  score : Rat
deriving DecidableEq, Repr

/-- The external collaborators and failure switches of one run: filesystem,
MD5 digest, path helpers, PDF page extraction, the Gemini embedding calls
(which may fail), the vector engine's ranking function, and whether the
store's insert / flush / load / search primitives raise. -/
structure Env where
  fs : String → Option FileInfo
  md5 : List Nat → String
  abspath : String → String
  basename : String → String
  extract : List Nat → List (List Char)
  embed : List Char → Except String (List Rat)
  embedQuery : List Char → Except String (List Rat)
  search : List Row → List Rat → Nat → List SearchHit
  insert_fails : Bool
  flush_fails : Bool
  load_fails : Bool
  search_fails : Bool

/-- The mutable state of a `CardiologyVectorDB` instance: the ledger file,
the collection contents, and whether the collection is loaded. -/
structure DBState where
  ledger : LedgerFile
  store : List Row
  loaded : Bool
deriving DecidableEq, Repr

/-- Python dict lookup `d[k]` / `k in d` on the `processed_files` mapping. -/
def getEntry : List (String × FileEntry) → String → Option FileEntry
  | [], _ => none
  | (k', e') :: rest, k => if k' = k then some e' else getEntry rest k

/-- Python dict assignment `d[k] = e` (overwrite or append). -/
def setEntry : List (String × FileEntry) → String → FileEntry → List (String × FileEntry)
  | [], k, e => [(k, e)]
  | (k', e') :: rest, k, e =>
    if k' = k then (k, e) :: rest else (k', e') :: setEntry rest k e

/-- Python `del d[k]` (a dict key occurs once; dropping every pair with the
key gives the same mapping). -/
def delEntry : List (String × FileEntry) → String → List (String × FileEntry)
  | [], _ => []
  | (k', e') :: rest, k =>
    if k' = k then delEntry rest k else (k', e') :: delEntry rest k

/-- `CardiologyVectorDB._get_file_hash` (lines 56-66): MD5 of the file bytes,
`""` when the file cannot be read. -/
def get_file_hash (env : Env) (path : String) : String :=
  match env.fs path with
  | some fi => env.md5 fi.bytes
  | none => ""

/-- `CardiologyVectorDB._load_index_metadata` (lines 68-76): a missing or
unparseable metadata file yields `{"processed_files": {}, "collection_stats": {}}`. -/
def load_index_metadata : LedgerFile → Metadata
  | .stored m => m
  | _ => ⟨[], none⟩

/-- `CardiologyVectorDB._is_file_processed` (lines 86-101). -/
def is_file_processed (env : Env) (lf : LedgerFile) (path : String) : Bool :=
  let metadata := load_index_metadata lf
  if (env.fs path).isNone then false
  else
    let fileKey := env.abspath path
    let currentHash := get_file_hash env path
    match getEntry metadata.processed_files fileKey with
    | some entry => entry.file_hash == currentHash
    | none => false

/-- A page record produced by `load_pdf`. -/
structure PageDoc where
  text : List Char
  source : String
  page_num : Nat
deriving DecidableEq, Repr

/-- A chunk record produced by `process_documents`. -/
structure ChunkRec where
  text : List Char
  source : String
  page_num : Nat
  chunk_id : Nat
deriving DecidableEq, Repr

/-- `CardiologyVectorDB.load_pdf` (lines 188-212): extract the pages of the
file, keep only pages whose text is non-blank, numbering pages from 1; an
unreadable file yields `[]`. -/
def load_pdf (env : Env) (path : String) : List PageDoc :=
  match env.fs path with
  | none => []
  | some fi =>
    (env.extract fi.bytes).enum.filterMap fun p =>
      if (stripList p.2).length ≠ 0 then
        some ⟨p.2, env.basename path, p.1 + 1⟩
      else none

/-- The chunking-and-filtering loop of `CardiologyVectorDB.process_documents`
(lines 246-264) over an already-extracted page list: per page, enumerate the
chunks of `chunk_text(text)` (defaults 1000 / 200) and keep those longer
than 50 characters after stripping, carrying the per-page chunk position as
`chunk_id`. -/
def process_pages (docs : List PageDoc) : List ChunkRec :=
  docs.foldl (fun acc d =>
    ((chunk_text d.text 1000 200).enum).foldl (fun acc2 p =>
      if 50 < (stripList p.2).length then
        acc2 ++ [⟨p.2, d.source, d.page_num, p.1⟩]
      else acc2) acc) []

/-- `CardiologyVectorDB.process_documents` (lines 246-264). -/
def process_documents (env : Env) (path : String) : List ChunkRec :=
  process_pages (load_pdf env path)

/-- `CardiologyVectorDB.generate_embedding` (lines 159-172): on an embedding
error the exception is swallowed and the zero vector `[0.0] * 768` is
returned. -/
def generate_embedding (env : Env) (text : List Char) : List Rat :=
  match env.embed text with
  | .ok v => v
  | .error _ => List.replicate 768 0

/-- `CardiologyVectorDB.generate_query_embedding` (lines 174-186). -/
def generate_query_embedding (env : Env) (query : List Char) : List Rat :=
  match env.embedQuery query with
  | .ok v => v
  | .error _ => List.replicate 768 0

/-- `CardiologyVectorDB._mark_file_as_processed` (lines 336-355): reload the
metadata, overwrite the entry for the absolute path with the current hash,
chunk count, `str(st_mtime)` and byte size, refresh `collection_stats`, and
save.  `none` models `Path(file_path).stat()` raising because the file is
gone (the caller's `except` then returns failure). -/
def mark_file_as_processed (env : Env) (lf : LedgerFile) (path : String)
    (chunkCount totalEntities : Nat) : Option LedgerFile :=
  let m := load_index_metadata lf
  match env.fs path with
  | none => none
  | some fi =>
    some (.stored
      { processed_files :=
          setEntry m.processed_files (env.abspath path)
            ⟨env.md5 fi.bytes, chunkCount, toString fi.mtime, fi.bytes.length⟩,
        collection_stats := some ⟨totalEntities⟩ })

/-- `CardiologyVectorDB.add_documents` (lines 266-334).  Returns the new
state, the Python return value, and the list of texts for which the
embedding API was invoked during the call (instrumentation used to state
the idempotence claim; the Python function performs exactly these calls). -/
def add_documents (env : Env) (st : DBState) (path : String) :
    DBState × Bool × List (List Char) :=
  if is_file_processed env st.ledger path then
    if !st.loaded then
      if env.load_fails then (st, false, [])
      else ({ st with loaded := true }, true, [])
    else (st, true, [])
  else
    let docs := process_documents env path
    if docs.isEmpty then (st, false, [])
    else
      let rows := docs.map fun d =>
        ⟨d.text, generate_embedding env d.text, d.source, d.page_num, d.chunk_id⟩
      let embedLog := docs.map (·.text)
      if env.insert_fails then (st, false, embedLog)
      else
        let st1 := { st with store := st.store ++ rows }
        if env.flush_fails then (st1, false, embedLog)
        else if env.load_fails then (st1, false, embedLog)
        else
          let st2 := { st1 with loaded := true }
          match mark_file_as_processed env st2.ledger path docs.length st2.store.length with
          | some lf' => ({ st2 with ledger := lf' }, true, embedLog)
          | none => (st2, false, embedLog)

/-- `CardiologyVectorDB.force_reindex` (lines 428-443): delete the metadata
entry for the absolute path (saving the ledger) when present, then run
`add_documents`. -/
def force_reindex (env : Env) (st : DBState) (path : String) :
    DBState × Bool × List (List Char) :=
  let m := load_index_metadata st.ledger
  let key := env.abspath path
  let st' :=
    match getEntry m.processed_files key with
    | some _ =>
      { st with ledger := .stored { m with processed_files := delEntry m.processed_files key } }
    | none => st
  add_documents env st' path

/-- `CardiologyVectorDB.search_similar_documents` (lines 357-393): embed the
query (degrading to the zero vector on embedding error), run the engine's
search, and format the hits; a raising search is swallowed into `[]`. -/
def search_similar_documents (env : Env) (st : DBState) (query : List Char)
    (topK : Nat) : List SearchResult :=
  let qe := generate_query_embedding env query
  if env.search_fails then []
  else (env.search st.store qe topK).map fun h =>
    ⟨h.text, h.source, h.page_num, h.chunk_id, h.distance⟩

/-- The batch of rows `add_documents` builds for a file (the column lists
`texts / embeddings / sources / page_nums / chunk_ids`, row-wise). -/
def docRows (env : Env) (path : String) : List Row :=
  (process_documents env path).map fun d =>
    ⟨d.text, generate_embedding env d.text, d.source, d.page_num, d.chunk_id⟩

/- ------------------------------------------------------------------ -/
/- Concrete environments and states used to evaluate the model.       -/
/- ------------------------------------------------------------------ -/

/-- A 60-character page text (one chunk, long enough to pass the 50-char filter). -/
def pageText60 : List Char := List.replicate 60 'a'

/-- A one-page PDF file with byte content `[1]` and `st_mtime = 5`. -/
def fi0 : FileInfo := ⟨[1], 5⟩

/-- A healthy environment: the file `doc.pdf` exists, extraction yields one
60-character page, embedding succeeds, and no store primitive fails. -/
def env0 : Env where
  fs := fun p => if p = "doc.pdf" then some fi0 else none
  md5 := fun _ => "H"
  abspath := fun p => p
  basename := fun p => p
  extract := fun _ => [pageText60]
  embed := fun _ => .ok [1]
  embedQuery := fun _ => .ok [2]
  search := fun _ _ _ => []
  insert_fails := false
  flush_fails := false
  load_fails := false
  search_fails := false

/-- `env0` with a failing document-embedding call. -/
def envEmbedFail : Env := { env0 with embed := fun _ => .error "boom" }

/-- `env0` with a failing batch insert. -/
def envInsertFail : Env := { env0 with insert_fails := true }

/-- `env0` with a failing query-embedding call and a non-empty search answer. -/
def envQueryFail : Env :=
  { env0 with
    embedQuery := fun _ => .error "qboom",
    search := fun _ _ _ => [⟨pageText60, "doc.pdf", 1, 0, 1⟩] }

/-- `env0` with an empty filesystem. -/
def envNoFile : Env := { env0 with fs := fun _ => none }

/-- A fresh handler state: no ledger file, empty collection, not loaded. -/
def dbInit : DBState := ⟨.missing, [], false⟩

/-- A ledger entry recorded for `doc.pdf` by a previous indexing run of
`env0` (hash `"H"`, one chunk, `processed_date = str(5)`, one byte). -/
def oldEntry : FileEntry := ⟨"H", 1, toString (5 : Int), 1⟩

/-- Metadata holding exactly the `doc.pdf` entry. -/
def m4 : Metadata := ⟨[("doc.pdf", oldEntry)], some ⟨1⟩⟩

/-- A state in which `doc.pdf` is already indexed and the collection loaded. -/
def st4 : DBState := ⟨.stored m4, [⟨pageText60, [1], "doc.pdf", 1, 0⟩], true⟩

/- ------------------------------------------------------------------ -/
/- Lemmas about rfind, slices and stripping.                          -/
/- ------------------------------------------------------------------ -/

/-- The relation "not both whitespace" between adjacent characters; the
normalised text is a `Chain'` of it. -/
def noWW (a b : Char) : Prop := ¬(isWS a = true ∧ isWS b = true)

lemma rfindAux_some {t : List Char} {c : Char} {start stop j : Nat}
    (h : rfindAux t c start stop = some j) :
    start ≤ j ∧ j < stop ∧ t.get? j = some c := by
  induction stop with
  | zero => simp [rfindAux] at h
  | succ k ih =>
    rw [rfindAux] at h
    split at h
    · rename_i hc
      cases h
      exact ⟨hc.1, Nat.lt_succ_self _, hc.2⟩
    · obtain ⟨h1, h2, h3⟩ := ih h
      exact ⟨h1, Nat.lt_succ_of_lt h2, h3⟩

lemma rfindAux_max {t : List Char} {c : Char} {start stop j : Nat}
    (h : rfindAux t c start stop = some j) :
    ∀ k, j < k → k < stop → t.get? k ≠ some c := by
  induction stop with
  | zero => simp [rfindAux] at h
  | succ m ih =>
    rw [rfindAux] at h
    intro k hjk hk
    split at h
    · cases h
      omega
    · rename_i hc
      rcases Nat.lt_succ_iff_lt_or_eq.1 hk with hk' | hk'
      · exact ih h k hjk hk'
      · subst hk'
        intro hget
        have hsj := (rfindAux_some h).1
        exact hc ⟨Nat.le_trans hsj (Nat.le_of_lt hjk), hget⟩

lemma rfindAux_none {t : List Char} {c : Char} {start stop : Nat}
    (h : rfindAux t c start stop = none) :
    ∀ k, start ≤ k → k < stop → t.get? k ≠ some c := by
  induction stop with
  | zero => omega
  | succ m ih =>
    rw [rfindAux] at h
    split at h
    · exact absurd h (by simp)
    · rename_i hc
      intro k h1 h2
      rcases Nat.lt_succ_iff_lt_or_eq.1 h2 with hk' | hk'
      · exact ih h k h1 hk'
      · subst hk'
        intro hget
        exact hc ⟨h1, hget⟩

lemma stripList_length_le (l : List Char) : (stripList l).length ≤ l.length := by
  unfold stripList
  have h1 : (l.dropWhile isWS).length ≤ l.length :=
    List.IsSuffix.length_le (List.dropWhile_suffix _)
  have h2 : ((l.dropWhile isWS).reverse.dropWhile isWS).length ≤
      (l.dropWhile isWS).reverse.length :=
    List.IsSuffix.length_le (List.dropWhile_suffix _)
  simp only [List.length_reverse] at *
  omega

lemma stripList_subset (l : List Char) : stripList l ⊆ l := by
  unfold stripList
  intro a ha
  rw [List.mem_reverse] at ha
  have h1 := (List.dropWhile_suffix (l := (l.dropWhile isWS).reverse) isWS).subset ha
  rw [List.mem_reverse] at h1
  exact (List.dropWhile_suffix isWS).subset h1

lemma chain'_dropWhile {R : Char → Char → Prop} {l : List Char} (p : Char → Bool)
    (h : List.Chain' R l) : List.Chain' R (l.dropWhile p) := by
  obtain ⟨u, hu⟩ := List.dropWhile_suffix (l := l) p
  have heq : l.dropWhile p = l.drop u.length := by
    calc l.dropWhile p = (u ++ l.dropWhile p).drop u.length := (List.drop_left u _).symm
    _ = l.drop u.length := by rw [hu]
  rw [heq]
  exact h.drop _

lemma chain'_symm_reverse {l : List Char} (h : List.Chain' noWW l) :
    List.Chain' noWW l.reverse := by
  rw [List.chain'_reverse]
  exact h.imp (fun a b hab => fun ⟨x, y⟩ => hab ⟨y, x⟩)

lemma chain'_stripList {l : List Char} (h : List.Chain' noWW l) :
    List.Chain' noWW (stripList l) := by
  unfold stripList
  exact chain'_symm_reverse (chain'_dropWhile _ (chain'_symm_reverse (chain'_dropWhile _ h)))

lemma dropWhile_head_not {p : Char → Bool} {l : List Char} {a : Char}
    (h : (l.dropWhile p).head? = some a) : p a = false := by
  induction l with
  | nil => simp [List.dropWhile] at h
  | cons c rest ih =>
    rw [List.dropWhile_cons] at h
    split at h
    · exact ih h
    · rename_i hc
      simp only [List.head?_cons, Option.some.injEq] at h
      subst h
      simpa using hc

lemma dropWhile_eq_self_of_head {p : Char → Bool} {l : List Char} {a : Char}
    (hh : l.head? = some a) (ha : p a = false) : l.dropWhile p = l := by
  cases l with
  | nil => simp at hh
  | cons c rest =>
    simp only [List.head?_cons, Option.some.injEq] at hh
    subst hh
    rw [List.dropWhile_cons, ha]
    simp

lemma chain_dropWhile_length {l : List Char} (h : List.Chain' noWW l) :
    l.length - 1 ≤ (l.dropWhile isWS).length := by
  cases l with
  | nil => simp
  | cons a l' =>
    rw [List.dropWhile_cons]
    split
    · rename_i ha
      cases l' with
      | nil => simp
      | cons b l'' =>
        have hab : noWW a b := (List.chain'_cons'.1 h).1 b (by simp)
        have hb : isWS b = false := by
          rcases Bool.eq_false_or_eq_true (isWS b) with hb | hb
          · exact absurd ⟨ha, hb⟩ hab
          · exact hb
        rw [List.dropWhile_cons, hb]
        simp
    · simp

lemma getLast?_of_suffix {l s : List Char} (hs : s <:+ l) (hne : s ≠ []) :
    s.getLast? = l.getLast? := by
  obtain ⟨u, hu⟩ := hs
  rw [← hu, List.getLast?_append_of_ne_nil _ hne]

lemma strip_ge_of_last {l : List Char} (h : List.Chain' noWW l) {a : Char}
    (hlast : l.getLast? = some a) (ha : isWS a = false) :
    l.length - 1 ≤ (stripList l).length ∧ (stripList l).length ≤ l.length := by
  refine ⟨?_, stripList_length_le l⟩
  have hlnil : l ≠ [] := by
    intro hl; rw [hl] at hlast; simp at hlast
  set s1 := l.dropWhile isWS with hs1
  have hlen1 : l.length - 1 ≤ s1.length := chain_dropWhile_length h
  have hmem : a ∈ l := by
    have hg := List.getLast?_eq_getLast_of_ne_nil hlnil
    rw [hlast] at hg
    have : a = l.getLast hlnil := by
      injection hg.symm with hv
      exact hv.symm
    rw [this]
    exact List.getLast_mem hlnil
  have hs1ne : s1 ≠ [] := by
    intro hnil
    have := List.dropWhile_eq_nil_iff.1 hnil a hmem
    rw [this] at ha
    exact absurd ha (by simp)
  have hsuf : s1 <:+ l := List.dropWhile_suffix _
  have hlast1 : s1.getLast? = some a := by
    rw [getLast?_of_suffix hsuf hs1ne, hlast]
  have hh : s1.reverse.head? = some a := by
    rw [List.head?_reverse, hlast1]
  have hdw : s1.reverse.dropWhile isWS = s1.reverse := dropWhile_eq_self_of_head hh ha
  unfold stripList
  rw [← hs1, hdw, List.reverse_reverse]
  exact hlen1

lemma strip_pair {a b : Char} (h : noWW a b) : 1 ≤ (stripList [a, b]).length := by
  rcases Bool.eq_false_or_eq_true (isWS a) with ha | ha <;>
    rcases Bool.eq_false_or_eq_true (isWS b) with hb | hb
  · exact absurd ⟨ha, hb⟩ h
  · simp [stripList, List.dropWhile, ha, hb]
  · simp [stripList, List.dropWhile, ha, hb]
  · simp [stripList, List.dropWhile, ha, hb]

lemma stripList_head_not {l : List Char} {a : Char}
    (h : (stripList l).head? = some a) : isWS a = false := by
  unfold stripList at h
  rw [List.head?_reverse] at h
  have hne : (l.dropWhile isWS).reverse.dropWhile isWS ≠ [] := by
    intro hnil
    rw [hnil] at h
    simp at h
  have hsuf := List.dropWhile_suffix (l := (l.dropWhile isWS).reverse) isWS
  rw [getLast?_of_suffix hsuf hne, List.getLast?_reverse] at h
  exact dropWhile_head_not h

lemma stripList_getLast_not {l : List Char} {a : Char}
    (h : (stripList l).getLast? = some a) : isWS a = false := by
  unfold stripList at h
  rw [List.getLast?_reverse] at h
  exact dropWhile_head_not h

lemma stripList_idem (l : List Char) : stripList (stripList l) = stripList l := by
  cases hx : (stripList l).head? with
  | none =>
    have hnil : stripList l = [] := by
      cases hs : stripList l
      · rfl
      · rw [hs] at hx; simp at hx
    rw [hnil]
    rfl
  | some a =>
    have ha : isWS a = false := stripList_head_not hx
    have hne : stripList l ≠ [] := by
      intro hs; rw [hs] at hx; simp at hx
    obtain ⟨b, hb⟩ : ∃ b, (stripList l).getLast? = some b :=
      ⟨(stripList l).getLast hne, List.getLast?_eq_getLast_of_ne_nil hne⟩
    have hbn : isWS b = false := stripList_getLast_not hb
    have h1 : (stripList l).dropWhile isWS = stripList l :=
      dropWhile_eq_self_of_head hx ha
    have hrev : (stripList l).reverse.head? = some b := by
      rw [List.head?_reverse, hb]
    have h2 : (stripList l).reverse.dropWhile isWS = (stripList l).reverse :=
      dropWhile_eq_self_of_head hrev hbn
    show (((stripList l).dropWhile isWS).reverse.dropWhile isWS).reverse = stripList l
    rw [h1, h2, List.reverse_reverse]

lemma collapse_space : ∀ (b : Bool) (l : List Char), ∀ c ∈ collapseAux b l,
    isWS c = true → c = ' ' := by
  intro b l
  induction l generalizing b with
  | nil => intro c hc; simp [collapseAux] at hc
  | cons c rest ih =>
    intro x hx hxw
    rw [collapseAux] at hx
    by_cases hws : isWS c = true
    · rw [if_pos hws] at hx
      cases b with
      | true => exact ih true x hx hxw
      | false =>
        rcases List.mem_cons.1 hx with hx | hx
        · exact hx
        · exact ih true x hx hxw
    · rw [if_neg hws] at hx
      rcases List.mem_cons.1 hx with hx | hx
      · subst hx
        exact absurd hxw hws
      · exact ih false x hx hxw

lemma collapse_head_true : ∀ (l : List Char) {a : Char},
    (collapseAux true l).head? = some a → isWS a = false := by
  intro l
  induction l with
  | nil => intro a h; simp [collapseAux] at h
  | cons c rest ih =>
    intro a h
    rw [collapseAux] at h
    by_cases hws : isWS c = true
    · rw [if_pos hws] at h
      exact ih h
    · rw [if_neg hws] at h
      simp only [List.head?_cons, Option.some.injEq] at h
      subst h
      simpa using hws

lemma collapse_chain : ∀ (b : Bool) (l : List Char), List.Chain' noWW (collapseAux b l) := by
  intro b l
  induction l generalizing b with
  | nil => simp [collapseAux]
  | cons c rest ih =>
    rw [collapseAux]
    by_cases hws : isWS c = true
    · rw [if_pos hws]
      cases b with
      | true => exact ih true
      | false =>
        show List.Chain' noWW (' ' :: collapseAux true rest)
        rw [List.chain'_cons']
        refine ⟨?_, ih true⟩
        intro y hy hcontra
        have := collapse_head_true rest hy
        rw [this] at hcontra
        exact absurd hcontra.2 (by simp)
    · rw [if_neg hws]
      rw [List.chain'_cons']
      refine ⟨?_, ih false⟩
      intro y _ hcontra
      exact absurd hcontra.1 hws

lemma norm_chain (l : List Char) : List.Chain' noWW (normalizeText l) :=
  chain'_stripList (collapse_chain false l)

lemma norm_space (l : List Char) : ∀ c ∈ normalizeText l, isWS c = true → c = ' ' :=
  fun c hc => collapse_space false l c (stripList_subset _ hc)

lemma sliceL_length_le (t : List Char) (start stop : Nat) :
    (sliceL t start stop).length ≤ stop - start := by
  unfold sliceL
  rw [List.length_drop, List.length_take]
  omega

lemma sliceL_length (t : List Char) {start stop : Nat}
    (h1 : start ≤ stop) (h2 : stop ≤ t.length) :
    (sliceL t start stop).length = stop - start := by
  unfold sliceL
  rw [List.length_drop, List.length_take]
  omega

lemma sliceL_get? (t : List Char) {start stop i : Nat} (hi : start + i < stop) :
    (sliceL t start stop).get? i = t.get? (start + i) := by
  unfold sliceL
  rw [List.get?_eq_getElem?, List.get?_eq_getElem?, List.getElem?_drop,
    List.getElem?_take, if_pos (by omega)]

lemma sliceL_chain {t : List Char} (h : List.Chain' noWW t) (start stop : Nat) :
    List.Chain' noWW (sliceL t start stop) :=
  (h.take stop).drop start

lemma sliceL_subset (t : List Char) (start stop : Nat) : sliceL t start stop ⊆ t :=
  fun _ ha => List.take_subset _ _ (List.drop_subset _ _ ha)

lemma sliceL_getLast (t : List Char) {start stop : Nat}
    (h1 : start < stop) (h2 : stop ≤ t.length) :
    (sliceL t start stop).getLast? = t.get? (stop - 1) := by
  rw [List.getLast?_eq_getElem?, sliceL_length t (by omega) h2]
  unfold sliceL
  rw [List.getElem?_drop, List.getElem?_take, if_pos (by omega),
    ← List.get?_eq_getElem?]
  congr 1
  omega

lemma chain'_get? {R : Char → Char → Prop} {t : List Char} (h : List.Chain' R t)
    {i : Nat} {a b : Char} (ha : t.get? i = some a) (hb : t.get? (i + 1) = some b) :
    R a b := by
  obtain ⟨hia, hga⟩ := List.get?_eq_some.1 ha
  obtain ⟨hib, hgb⟩ := List.get?_eq_some.1 hb
  have := List.chain'_iff_get.1 h i (by omega)
  rw [show t.get ⟨i, by omega⟩ = a from hga, show t.get ⟨i + 1, by omega⟩ = b from hgb] at this
  exact this

/- ------------------------------------------------------------------ -/
/- Per-chunk length bounds of the chunking loop.                      -/
/- ------------------------------------------------------------------ -/

lemma strip_slice_ge {t : List Char} (hchain : List.Chain' noWW t) {start stop : Nat}
    (h1 : start < stop) (h2 : stop ≤ t.length) {a : Char}
    (hlast : t.get? (stop - 1) = some a) (ha : isWS a = false) :
    stop - start - 1 ≤ (stripList (sliceL t start stop)).length := by
  have hchain' := sliceL_chain hchain start stop
  have hlast' : (sliceL t start stop).getLast? = some a := by
    rw [sliceL_getLast t h1 h2]
    exact hlast
  have hge := (strip_ge_of_last hchain' hlast' ha).1
  rw [sliceL_length t (by omega) h2] at hge
  omega

lemma hard_cut_ge {t : List Char} (hchain : List.Chain' noWW t)
    (hsp : ∀ c ∈ t, isWS c = true → c = ' ') {cs start : Nat} (hcs : 2 ≤ cs)
    (hend0 : start + cs < t.length)
    (hnosp : ∀ k, start + cs / 2 < k → k < start + cs → t.get? k ≠ some ' ') :
    cs / 2 ≤ (stripList (sliceL t start (start + cs))).length := by
  by_cases hcs3 : 3 ≤ cs
  · obtain ⟨a, hga⟩ : ∃ a, t.get? (start + cs - 1) = some a :=
      ⟨t.get ⟨start + cs - 1, by omega⟩, List.get?_eq_get (by omega)⟩
    have hne : a ≠ ' ' := by
      intro hcon
      subst hcon
      exact hnosp (start + cs - 1) (by omega) (by omega) hga
    have haw : isWS a = false := by
      rcases Bool.eq_false_or_eq_true (isWS a) with hw | hw
      · exact absurd (hsp a (List.get?_mem hga) hw) hne
      · exact hw
    have hb := @strip_slice_ge t hchain start (start + cs) (by omega) (by omega) a
      (by simpa using hga) haw
    omega
  · have hcs2 : cs = 2 := by omega
    subst hcs2
    have hlen : (sliceL t start (start + 2)).length = 2 := by
      rw [sliceL_length t (by omega) (by omega)]
      omega
    obtain ⟨x, y, hxy⟩ := List.length_eq_two.1 hlen
    have hgx : t.get? start = some x := by
      have h0 := @sliceL_get? t start (start + 2) 0 (by omega)
      rw [hxy] at h0
      simpa using h0.symm
    have hgy : t.get? (start + 1) = some y := by
      have h1 := @sliceL_get? t start (start + 2) 1 (by omega)
      rw [hxy] at h1
      simpa using h1.symm
    have hR : noWW x y := chain'_get? hchain hgx hgy
    rw [hxy]
    exact strip_pair hR

lemma wordCut_ge {t : List Char} (hchain : List.Chain' noWW t)
    (hsp : ∀ c ∈ t, isWS c = true → c = ' ') {cs start : Nat} (hcs : 2 ≤ cs)
    (hend0 : start + cs < t.length) :
    cs / 2 ≤ (stripList (sliceL t start (wordCut t cs start (start + cs)))).length := by
  rcases hsp2 : rfindIn t ' ' start (start + cs) with _ | we
  · simp only [wordCut, hsp2]
    exact hard_cut_ge hchain hsp hcs hend0
      (fun k h1 h2 => rfindAux_none hsp2 k (by omega) h2)
  · simp only [wordCut, hsp2]
    by_cases hmidw : start + cs / 2 < we
    · rw [if_pos hmidw]
      obtain ⟨hw1, hw2, hw3⟩ := rfindAux_some hsp2
      have hwlen : we < t.length := by omega
      obtain ⟨a, hga⟩ : ∃ a, t.get? (we - 1) = some a :=
        ⟨t.get ⟨we - 1, by omega⟩, List.get?_eq_get (by omega)⟩
      have hR : noWW a ' ' := by
        have hsucc : we - 1 + 1 = we := by omega
        exact chain'_get? hchain hga (by rw [hsucc]; exact hw3)
      have haw : isWS a = false := by
        rcases Bool.eq_false_or_eq_true (isWS a) with hw | hw
        · exact absurd ⟨hw, by decide⟩ hR
        · exact hw
      have hb := @strip_slice_ge t hchain start we (by omega) (by omega) a hga haw
      omega
    · rw [if_neg hmidw]
      exact hard_cut_ge hchain hsp hcs hend0
        (fun k h1 h2 => rfindAux_max hsp2 k (by omega) h2)

lemma head_chunk_ge {t : List Char} (hchain : List.Chain' noWW t)
    (hsp : ∀ c ∈ t, isWS c = true → c = ' ') {cs start : Nat}
    (hlt : cutEnd t cs start < t.length) :
    cs / 2 ≤ (stripList (sliceL t start (cutEnd t cs start))).length := by
  by_cases hcs1 : cs ≤ 1
  · have h0 : cs / 2 = 0 := by omega
    rw [h0]
    exact Nat.zero_le _
  · have hcs : 2 ≤ cs := by omega
    by_cases hend0 : start + cs < t.length
    · rcases hdot : rfindIn t '.' start (start + cs) with _ | se
      · simp only [cutEnd, if_pos hend0, hdot]
        exact wordCut_ge hchain hsp hcs hend0
      · simp only [cutEnd, if_pos hend0, hdot]
        by_cases hmid : start + cs / 2 < se
        · rw [if_pos hmid]
          obtain ⟨hs1, hs2, hs3⟩ := rfindAux_some hdot
          have hselen : se < t.length := by omega
          have hb := @strip_slice_ge t hchain start (se + 1) (by omega) (by omega) '.'
            (by simpa using hs3) (by decide)
          omega
        · rw [if_neg hmid]
          exact wordCut_ge hchain hsp hcs hend0
    · rw [cutEnd, if_neg hend0] at hlt
      omega

lemma wordCut_le (t : List Char) (cs start : Nat) :
    wordCut t cs start (start + cs) ≤ start + cs := by
  rcases hsp2 : rfindIn t ' ' start (start + cs) with _ | we
  · simp only [wordCut, hsp2]
    exact Nat.le_refl _
  · simp only [wordCut, hsp2]
    split
    · exact Nat.le_of_lt (rfindAux_some hsp2).2.1
    · exact Nat.le_refl _

lemma cutEnd_le (t : List Char) (cs start : Nat) : cutEnd t cs start ≤ start + cs := by
  by_cases hend0 : start + cs < t.length
  · rcases hdot : rfindIn t '.' start (start + cs) with _ | se
    · simp only [cutEnd, if_pos hend0, hdot]
      exact wordCut_le t cs start
    · simp only [cutEnd, if_pos hend0, hdot]
      split
      · exact (rfindAux_some hdot).2.1
      · exact wordCut_le t cs start
  · rw [cutEnd, if_neg hend0]

lemma head_chunk_le (t : List Char) (cs start : Nat) :
    (stripList (sliceL t start (cutEnd t cs start))).length ≤ cs := by
  have h1 := stripList_length_le (sliceL t start (cutEnd t cs start))
  have h2 := sliceL_length_le t start (cutEnd t cs start)
  have h3 := cutEnd_le t cs start
  omega

lemma chunkLoop_nil {t : List Char} {cs ov start : Nat} (h : ¬ start < t.length) :
    ∀ fuel, chunkLoop t cs ov fuel start = [] := by
  intro fuel
  cases fuel with
  | zero => rfl
  | succ n => rw [chunkLoop, if_neg h]

lemma chunkLoop_bounds {t : List Char} {cs ov : Nat}
    (hchain : List.Chain' noWW t) (hsp : ∀ c ∈ t, isWS c = true → c = ' ') :
    ∀ fuel start i c, (chunkLoop t cs ov fuel start).get? i = some c →
      c.length ≤ cs ∧
      (i + 1 < (chunkLoop t cs ov fuel start).length → cs / 2 ≤ c.length) := by
  intro fuel
  induction fuel with
  | zero => intro start i c h; simp [chunkLoop] at h
  | succ n ih =>
    intro start i c h
    by_cases hs : start < t.length
    · rw [chunkLoop, if_pos hs] at h ⊢
      cases i with
      | zero =>
        simp only [List.get?_cons_zero, Option.some.injEq] at h
        subst h
        refine ⟨head_chunk_le t cs start, ?_⟩
        intro hlen
        simp only [List.length_cons] at hlen
        have hrest : chunkLoop t cs ov n
            (if cutEnd t cs start < t.length then cutEnd t cs start - ov
             else cutEnd t cs start) ≠ [] := by
          intro hnil
          rw [hnil] at hlen
          simp at hlen
        by_cases he : cutEnd t cs start < t.length
        · exact head_chunk_ge hchain hsp he
        · rw [if_neg he] at hrest
          exact absurd (chunkLoop_nil (by omega) n) hrest
      | succ i' =>
        simp only [List.get?_cons_succ] at h
        have := ih _ i' c h
        refine ⟨this.1, ?_⟩
        intro hlen
        simp only [List.length_cons] at hlen
        exact this.2 (by omega)
    · rw [chunkLoop_nil hs] at h
      simp at h

lemma chunk_text_eq_single {text : List Char} {cs ov : Nat}
    (h : (normalizeText text).length ≤ cs) :
    chunk_text text cs ov = [normalizeText text] := by
  show (if (normalizeText text).length ≤ cs then [normalizeText text]
    else chunkLoop (normalizeText text) cs ov ((normalizeText text).length + 1) 0) = _
  rw [if_pos h]

lemma chunk_text_eq_loop {text : List Char} {cs ov : Nat}
    (h : cs < (normalizeText text).length) :
    chunk_text text cs ov =
      chunkLoop (normalizeText text) cs ov ((normalizeText text).length + 1) 0 := by
  show (if (normalizeText text).length ≤ cs then [normalizeText text]
    else chunkLoop (normalizeText text) cs ov ((normalizeText text).length + 1) 0) = _
  rw [if_neg (by omega)]

lemma chunk_text_bounds {text : List Char} {cs ov : Nat}
    (h : cs < (normalizeText text).length) :
    ∀ i c, (chunk_text text cs ov).get? i = some c →
      c.length ≤ cs ∧ (i + 1 < (chunk_text text cs ov).length → cs / 2 ≤ c.length) := by
  intro i c hc
  rw [chunk_text_eq_loop h] at hc ⊢
  exact chunkLoop_bounds (norm_chain text) (norm_space text) _ 0 i c hc

lemma chunkLoop_stripped {t : List Char} {cs ov : Nat} :
    ∀ fuel start c, c ∈ chunkLoop t cs ov fuel start → stripList c = c := by
  intro fuel
  induction fuel with
  | zero => intro start c hc; simp [chunkLoop] at hc
  | succ n ih =>
    intro start c hc
    by_cases hs : start < t.length
    · rw [chunkLoop, if_pos hs] at hc
      rcases List.mem_cons.1 hc with hc | hc
      · subst hc
        exact stripList_idem _
      · exact ih _ c hc
    · rw [chunkLoop_nil hs] at hc
      simp at hc

lemma chunk_text_stripped {text : List Char} {cs ov : Nat} {c : List Char}
    (hc : c ∈ chunk_text text cs ov) : stripList c = c := by
  by_cases h : (normalizeText text).length ≤ cs
  · rw [chunk_text_eq_single h] at hc
    simp only [List.mem_singleton] at hc
    subst hc
    exact stripList_idem _
  · rw [chunk_text_eq_loop (by omega)] at hc
    exact chunkLoop_stripped _ 0 c hc

lemma chunk_kept_mono {t : List Char} {i j : Nat} {ci cj : List Char}
    (hij : i < j)
    (hi : (chunk_text t 1000 200).get? i = some ci)
    (hj : (chunk_text t 1000 200).get? j = some cj) :
    50 < (stripList ci).length := by
  by_cases h : (normalizeText t).length ≤ 1000
  · rw [chunk_text_eq_single h] at hj
    have hjl := (List.get?_eq_some.1 hj).1
    simp only [List.length_singleton] at hjl
    omega
  · have hb := chunk_text_bounds (by omega) i ci hi
    have hjlen := (List.get?_eq_some.1 hj).1
    have h500 : 1000 / 2 ≤ ci.length := hb.2 (by omega)
    rw [chunk_text_stripped (List.get?_mem hi)]
    omega

/- ------------------------------------------------------------------ -/
/- Lemmas about process_pages and the metadata dictionary.            -/
/- ------------------------------------------------------------------ -/

lemma inner_fold_eq (d : PageDoc) (l : List (Nat × List Char)) :
    ∀ acc : List ChunkRec,
      l.foldl (fun acc2 p =>
        if 50 < (stripList p.2).length then
          acc2 ++ [⟨p.2, d.source, d.page_num, p.1⟩]
        else acc2) acc =
      acc ++ (l.filter (fun p => decide (50 < (stripList p.2).length))).map
        (fun p => ChunkRec.mk p.2 d.source d.page_num p.1) := by
  induction l with
  | nil => intro acc; simp
  | cons x xs ih =>
    intro acc
    rw [List.foldl_cons, List.filter_cons]
    by_cases hx : 50 < (stripList x.2).length
    · rw [if_pos hx, ih]
      simp [hx]
    · rw [if_neg hx, ih]
      simp [hx]

lemma process_pages_eq (docs : List PageDoc) :
    process_pages docs = docs.flatMap fun d =>
      (((chunk_text d.text 1000 200).enum).filter
        (fun p => decide (50 < (stripList p.2).length))).map
        fun p => ChunkRec.mk p.2 d.source d.page_num p.1 := by
  have main : ∀ (ds : List PageDoc) (acc : List ChunkRec),
      ds.foldl (fun acc d =>
        ((chunk_text d.text 1000 200).enum).foldl (fun acc2 p =>
          if 50 < (stripList p.2).length then
            acc2 ++ [⟨p.2, d.source, d.page_num, p.1⟩]
          else acc2) acc) acc =
      acc ++ ds.flatMap fun d =>
        (((chunk_text d.text 1000 200).enum).filter
          (fun p => decide (50 < (stripList p.2).length))).map
          fun p => ChunkRec.mk p.2 d.source d.page_num p.1 := by
    intro ds
    induction ds with
    | nil => intro acc; simp
    | cons d ds ih =>
      intro acc
      rw [List.foldl_cons, inner_fold_eq d _ acc, ih, List.flatMap_cons,
        List.append_assoc]
  exact main docs []

lemma process_pages_chunk_id {docs : List PageDoc} {r : ChunkRec}
    (hr : r ∈ process_pages docs) :
    ∃ d ∈ docs, (chunk_text d.text 1000 200).get? r.chunk_id = some r.text ∧
      r.source = d.source ∧ r.page_num = d.page_num ∧
      50 < (stripList r.text).length := by
  rw [process_pages_eq] at hr
  obtain ⟨d, hd, hmap⟩ := List.mem_flatMap.1 hr
  obtain ⟨p, hp, hpr⟩ := List.mem_map.1 hmap
  have hfil := List.mem_filter.1 hp
  have henum := List.mem_enum_iff_getElem?.1 hfil.1
  refine ⟨d, hd, ?_, ?_, ?_, ?_⟩
  · rw [← hpr]
    show (chunk_text d.text 1000 200).get? p.1 = some p.2
    rw [List.get?_eq_getElem?]
    exact henum
  · rw [← hpr]
  · rw [← hpr]
  · have := hfil.2
    rw [← hpr]
    simpa using this

lemma getEntry_setEntry (m : List (String × FileEntry)) (k : String) (e : FileEntry) :
    getEntry (setEntry m k e) k = some e := by
  induction m with
  | nil => simp [setEntry, getEntry]
  | cons p rest ih =>
    obtain ⟨k', e'⟩ := p
    rw [setEntry]
    by_cases hk : k' = k
    · rw [if_pos hk, getEntry, if_pos rfl]
    · rw [if_neg hk, getEntry, if_neg hk]
      exact ih

/- ------------------------------------------------------------------ -/
/- Lemmas about add_documents.                                        -/
/- ------------------------------------------------------------------ -/

lemma process_pages_nil : process_pages [] = [] := rfl

lemma process_documents_fs {env : Env} {path : String}
    (h : process_documents env path ≠ []) : ∃ fi, env.fs path = some fi := by
  cases hfs : env.fs path with
  | none =>
    exfalso
    apply h
    rw [process_documents, load_pdf, hfs]
    rfl
  | some fi => exact ⟨fi, rfl⟩

lemma add_documents_processed {env : Env} {st : DBState} {path : String}
    (h : is_file_processed env st.ledger path = true) (hl : st.loaded = true) :
    add_documents env st path = (st, true, []) := by
  rw [add_documents, if_pos h, hl]
  simp

lemma add_documents_success {env : Env} {st : DBState} {path : String} {fi : FileInfo}
    (h0 : is_file_processed env st.ledger path = false)
    (hfs : env.fs path = some fi)
    (hdocs : process_documents env path ≠ [])
    (hins : env.insert_fails = false) (hfl : env.flush_fails = false)
    (hld : env.load_fails = false) :
    add_documents env st path =
      ({ ledger := .stored
          { processed_files :=
              setEntry (load_index_metadata st.ledger).processed_files
                (env.abspath path)
                ⟨env.md5 fi.bytes, (process_documents env path).length,
                  toString fi.mtime, fi.bytes.length⟩,
            collection_stats := some ⟨(st.store ++ docRows env path).length⟩ },
         store := st.store ++ docRows env path,
         loaded := true }, true, (process_documents env path).map (·.text)) := by
  rw [add_documents, if_neg (by simp [h0])]
  simp only [List.isEmpty_eq_true, hdocs, if_false, hins, hfl, hld,
    Bool.false_eq_true, mark_file_as_processed, hfs, docRows]

lemma add_documents_true_inv {env : Env} {st st' : DBState} {path : String}
    {log : List (List Char)}
    (h0 : is_file_processed env st.ledger path = false)
    (h : add_documents env st path = (st', true, log)) :
    env.insert_fails = false ∧ env.flush_fails = false ∧ env.load_fails = false ∧
      process_documents env path ≠ [] := by
  rw [add_documents, if_neg (by simp [h0])] at h
  by_cases hdocs : (process_documents env path).isEmpty = true
  · rw [if_pos hdocs] at h
    exact absurd (congrArg (fun r => r.2.1) h) (by simp)
  · rw [if_neg hdocs] at h
    by_cases hins : env.insert_fails = true
    · rw [if_pos hins] at h
      exact absurd (congrArg (fun r => r.2.1) h) (by simp)
    · rw [if_neg hins] at h
      by_cases hfl : env.flush_fails = true
      · rw [if_pos hfl] at h
        exact absurd (congrArg (fun r => r.2.1) h) (by simp)
      · rw [if_neg hfl] at h
        by_cases hld : env.load_fails = true
        · rw [if_pos hld] at h
          exact absurd (congrArg (fun r => r.2.1) h) (by simp)
        · refine ⟨by simpa using hins, by simpa using hfl, by simpa using hld, by simpa using hdocs⟩

lemma beq_self_string (s : String) : (s == s) = true := by
  simp

lemma processed_after_mark {env : Env} {m : List (String × FileEntry)}
    {s : Option Stats} {path : String} {fi : FileInfo} {n : Nat}
    (hfs : env.fs path = some fi) :
    is_file_processed env
      (.stored
        { processed_files :=
            setEntry m (env.abspath path)
              ⟨env.md5 fi.bytes, n, toString fi.mtime, fi.bytes.length⟩,
          collection_stats := s }) path = true := by
  rw [is_file_processed]
  simp only [load_index_metadata, hfs, Option.isNone_some, if_false,
    getEntry_setEntry, get_file_hash]
  exact beq_self_string _

lemma getEntry_delEntry (m : List (String × FileEntry)) (k : String) :
    getEntry (delEntry m k) k = none := by
  induction m with
  | nil => rfl
  | cons p rest ih =>
    obtain ⟨k', e'⟩ := p
    rw [delEntry]
    by_cases hk : k' = k
    · rw [if_pos hk]
      exact ih
    · rw [if_neg hk, getEntry, if_neg hk]
      exact ih

lemma processed_after_del {env : Env} {m : Metadata} {path : String} :
    is_file_processed env
      (.stored { m with processed_files := delEntry m.processed_files (env.abspath path) })
      path = false := by
  rw [is_file_processed]
  split
  · rfl
  · simp only [load_index_metadata, getEntry_delEntry]

lemma add_documents_empty {env : Env} {st : DBState} {path : String}
    (h0 : is_file_processed env st.ledger path = false)
    (hdocs : process_documents env path = []) :
    add_documents env st path = (st, false, []) := by
  rw [add_documents, if_neg (by simp [h0]), if_pos (by simp [hdocs])]

lemma add_documents_insert_fail {env : Env} {st : DBState} {path : String}
    (h0 : is_file_processed env st.ledger path = false)
    (hdocs : process_documents env path ≠ [])
    (hins : env.insert_fails = true) :
    add_documents env st path = (st, false, (process_documents env path).map (·.text)) := by
  rw [add_documents, if_neg (by simp [h0])]
  simp only [List.isEmpty_eq_true, hdocs, if_false, hins, if_true]

lemma add_documents_flush_fail {env : Env} {st : DBState} {path : String}
    (h0 : is_file_processed env st.ledger path = false)
    (hdocs : process_documents env path ≠ [])
    (hins : env.insert_fails = false) (hfl : env.flush_fails = true) :
    add_documents env st path =
      ({ st with store := st.store ++ docRows env path }, false,
        (process_documents env path).map (·.text)) := by
  rw [add_documents, if_neg (by simp [h0])]
  simp only [List.isEmpty_eq_true, hdocs, if_false, hins, hfl, if_true,
    Bool.false_eq_true, docRows]

lemma add_documents_load_fail {env : Env} {st : DBState} {path : String}
    (h0 : is_file_processed env st.ledger path = false)
    (hdocs : process_documents env path ≠ [])
    (hins : env.insert_fails = false) (hfl : env.flush_fails = false)
    (hld : env.load_fails = true) :
    add_documents env st path =
      ({ st with store := st.store ++ docRows env path }, false,
        (process_documents env path).map (·.text)) := by
  rw [add_documents, if_neg (by simp [h0])]
  simp only [List.isEmpty_eq_true, hdocs, if_false, hins, hfl, hld, if_true,
    Bool.false_eq_true, docRows]

/- ------------------------------------------------------------------ -/
/- Claim theorems.                                                    -/
/- ------------------------------------------------------------------ -/

/-- Claim C1, counterexample: with every store primitive succeeding but the
embedding call failing, `add_documents` returns success and the row carrying
the zero placeholder vector is inserted into the store, so the claimed
default abort-and-fail policy does not exist in the code. -/
theorem C1_counterexample :
    envEmbedFail.embed pageText60 = .error "boom" ∧
    (add_documents envEmbedFail dbInit "doc.pdf").2.1 = true ∧
    (⟨pageText60, List.replicate 768 0, "doc.pdf", 1, 0⟩ : Row) ∈
      (add_documents envEmbedFail dbInit "doc.pdf").1.store :=
  ⟨rfl, by decide, by decide⟩

/-- Claim C1, amended: an embedding failure for a chunk never aborts the
indexing run; the chunk is retained with the zero placeholder vector
`[0.0] * 768`, inserted into the vector store with the rest of the batch,
and `add_documents` returns success (there is no best-effort switch; this is
the only behaviour). -/
theorem C1_embedding_failure_masked (env : Env) (st : DBState) (path : String)
    (d : ChunkRec) (err : String)
    (h0 : is_file_processed env st.ledger path = false)
    (hd : d ∈ process_documents env path)
    (he : env.embed d.text = .error err)
    (hins : env.insert_fails = false) (hfl : env.flush_fails = false)
    (hld : env.load_fails = false) :
    (add_documents env st path).2.1 = true ∧
    (⟨d.text, List.replicate 768 0, d.source, d.page_num, d.chunk_id⟩ : Row) ∈
      (add_documents env st path).1.store := by
  have hdocs : process_documents env path ≠ [] := by
    intro hnil
    rw [hnil] at hd
    simp at hd
  obtain ⟨fi, hfs⟩ := process_documents_fs hdocs
  rw [add_documents_success h0 hfs hdocs hins hfl hld]
  refine ⟨rfl, ?_⟩
  apply List.mem_append_right
  rw [docRows]
  refine List.mem_map.2 ⟨d, hd, ?_⟩
  simp only [generate_embedding, he]

/-- Claim C1, witness for the amended theorem at a concrete run. -/
theorem C1_witness :
    (is_file_processed envEmbedFail dbInit.ledger "doc.pdf" = false ∧
      (⟨pageText60, "doc.pdf", 1, 0⟩ : ChunkRec) ∈
        process_documents envEmbedFail "doc.pdf" ∧
      envEmbedFail.embed pageText60 = .error "boom") ∧
    ((add_documents envEmbedFail dbInit "doc.pdf").2.1 = true ∧
      (⟨pageText60, List.replicate 768 0, "doc.pdf", 1, 0⟩ : Row) ∈
        (add_documents envEmbedFail dbInit "doc.pdf").1.store) :=
  ⟨⟨by decide, by decide, rfl⟩,
    C1_embedding_failure_masked envEmbedFail dbInit "doc.pdf"
      ⟨pageText60, "doc.pdf", 1, 0⟩ "boom" (by decide) (by decide) rfl rfl rfl rfl⟩

/-- Claim C2: for an unprocessed file, a first `add_documents` call that
succeeds embeds exactly the document's chunk texts, and the immediately
repeated call with unchanged content is a no-op returning success: the state
(ledger, store, loaded flag) is unchanged and no embedding call is made. -/
theorem C2_idempotent_readd (env : Env) (st0 : DBState) (path : String)
    (h0 : is_file_processed env st0.ledger path = false)
    (h1 : (add_documents env st0 path).2.1 = true) :
    (add_documents env st0 path).2.2 = (process_documents env path).map (·.text) ∧
    add_documents env (add_documents env st0 path).1 path =
      ((add_documents env st0 path).1, true, []) := by
  have hr : add_documents env st0 path =
      ((add_documents env st0 path).1, (add_documents env st0 path).2.1,
        (add_documents env st0 path).2.2) := rfl
  rw [h1] at hr
  obtain ⟨hins, hfl, hld, hdocs⟩ := add_documents_true_inv h0 hr
  obtain ⟨fi, hfs⟩ := process_documents_fs hdocs
  have hsucc := add_documents_success h0 hfs hdocs hins hfl hld
  constructor
  · rw [hsucc]
  · rw [hsucc]
    exact add_documents_processed (processed_after_mark hfs) rfl

/-- Claim C2, witness at a concrete run. -/
theorem C2_witness :
    (is_file_processed env0 dbInit.ledger "doc.pdf" = false ∧
      (add_documents env0 dbInit "doc.pdf").2.1 = true) ∧
    ((add_documents env0 dbInit "doc.pdf").2.2 =
        (process_documents env0 "doc.pdf").map (·.text) ∧
      add_documents env0 (add_documents env0 dbInit "doc.pdf").1 "doc.pdf" =
        ((add_documents env0 dbInit "doc.pdf").1, true, [])) :=
  ⟨⟨by decide, by decide⟩,
    C2_idempotent_readd env0 dbInit "doc.pdf" (by decide) (by decide)⟩

/-- Claim C3, counterexample: an embedding failure does not leave the ledger
unchanged with a failure result — the run continues with the zero vector,
the ledger entry is written and `add_documents` returns success. -/
theorem C3_counterexample :
    envEmbedFail.embed pageText60 = .error "boom" ∧
    (add_documents envEmbedFail dbInit "doc.pdf").2.1 = true ∧
    (add_documents envEmbedFail dbInit "doc.pdf").1.ledger ≠ dbInit.ledger :=
  ⟨rfl, by decide, by decide⟩

/-- Claim C3, amended: for an unprocessed file, the ledger entry is written
only when insert and flush (and the subsequent load) all succeed, and any
extraction or insert/flush/load failure leaves the ledger unchanged with
`add_documents` returning failure; an embedding failure, however, is not a
run failure (the zero vector is inserted and the ledger is still written). -/
theorem C3_ledger_only_after_insert (env : Env) (st : DBState) (path : String)
    (h0 : is_file_processed env st.ledger path = false) :
    ((env.insert_fails = true ∨ env.flush_fails = true ∨ env.load_fails = true ∨
        process_documents env path = []) →
      (add_documents env st path).1.ledger = st.ledger ∧
      (add_documents env st path).2.1 = false) ∧
    ((add_documents env st path).1.ledger ≠ st.ledger →
      env.insert_fails = false ∧ env.flush_fails = false ∧
      (add_documents env st path).2.1 = true) := by
  by_cases hdocs : process_documents env path = []
  · rw [add_documents_empty h0 hdocs]
    exact ⟨fun _ => ⟨rfl, rfl⟩, fun hne => absurd rfl hne⟩
  · by_cases hins : env.insert_fails = true
    · rw [add_documents_insert_fail h0 hdocs hins]
      exact ⟨fun _ => ⟨rfl, rfl⟩, fun hne => absurd rfl hne⟩
    · have hins' : env.insert_fails = false := by simpa using hins
      by_cases hfl : env.flush_fails = true
      · rw [add_documents_flush_fail h0 hdocs hins' hfl]
        exact ⟨fun _ => ⟨rfl, rfl⟩, fun hne => absurd rfl hne⟩
      · have hfl' : env.flush_fails = false := by simpa using hfl
        by_cases hld : env.load_fails = true
        · rw [add_documents_load_fail h0 hdocs hins' hfl' hld]
          exact ⟨fun _ => ⟨rfl, rfl⟩, fun hne => absurd rfl hne⟩
        · have hld' : env.load_fails = false := by simpa using hld
          obtain ⟨fi, hfs⟩ := process_documents_fs hdocs
          rw [add_documents_success h0 hfs hdocs hins' hfl' hld']
          refine ⟨?_, fun _ => ⟨hins', hfl', rfl⟩⟩
          rintro (h | h | h | h)
          · exact absurd h (by simp [hins'])
          · exact absurd h (by simp [hfl'])
          · exact absurd h (by simp [hld'])
          · exact absurd h hdocs

/-- Claim C3, witness for the amended theorem: a failing insert leaves the
ledger unchanged and returns failure. -/
theorem C3_witness :
    is_file_processed envInsertFail dbInit.ledger "doc.pdf" = false ∧
    ((add_documents envInsertFail dbInit "doc.pdf").1.ledger = dbInit.ledger ∧
      (add_documents envInsertFail dbInit "doc.pdf").2.1 = false) :=
  ⟨by decide,
    (C3_ledger_only_after_insert envInsertFail dbInit "doc.pdf" (by decide)).1
      (Or.inl rfl)⟩

/-- Claim C4, counterexample: forcing a reindex of `doc.pdf` with unchanged
content re-runs the pipeline, but the new ledger entry is byte-for-byte the
old one — in particular `processed_date` (which stores `str(st_mtime)`, not
a fresh wall-clock timestamp) is equal to, not strictly later than, the
removed entry's value. -/
theorem C4_counterexample :
    getEntry (load_index_metadata st4.ledger).processed_files "doc.pdf" =
      some oldEntry ∧
    (force_reindex env0 st4 "doc.pdf").2.2 ≠ [] ∧
    getEntry
      (load_index_metadata (force_reindex env0 st4 "doc.pdf").1.ledger).processed_files
      "doc.pdf" = some oldEntry :=
  ⟨by decide, by decide, by decide⟩

/-- Claim C4, amended: `force_reindex` removes the ledger entry and re-runs
the whole pipeline even for unchanged content (chunks are re-embedded and
re-inserted, duplicating vectors); the new entry's `processed_date` is the
file's `st_mtime`, so when the file is unchanged it equals the removed
entry's `processed_date` rather than being strictly later. -/
theorem C4_force_reindex_same_mtime (env : Env) (st : DBState) (path : String)
    (fi : FileInfo) (m : Metadata) (old : FileEntry)
    (hledger : st.ledger = .stored m)
    (hold : getEntry m.processed_files (env.abspath path) = some old)
    (hfs : env.fs path = some fi)
    (hdocs : process_documents env path ≠ [])
    (hins : env.insert_fails = false) (hfl : env.flush_fails = false)
    (hld : env.load_fails = false) :
    (force_reindex env st path).2.1 = true ∧
    (force_reindex env st path).2.2 = (process_documents env path).map (·.text) ∧
    (force_reindex env st path).1.store = st.store ++ docRows env path ∧
    ∃ newE, getEntry
        (load_index_metadata (force_reindex env st path).1.ledger).processed_files
        (env.abspath path) = some newE ∧
      newE.processed_date = toString fi.mtime ∧
      (old.processed_date = toString fi.mtime →
        newE.processed_date = old.processed_date) := by
  have hstep : force_reindex env st path =
      add_documents env
        { st with ledger := .stored
                    { m with processed_files :=
                        delEntry m.processed_files (env.abspath path) } }
        path := by
    rw [force_reindex, hledger]
    simp only [load_index_metadata, hold]
  rw [hstep]
  have h0 : is_file_processed env
      (DBState.mk
        (.stored { m with processed_files := delEntry m.processed_files (env.abspath path) })
        st.store st.loaded).ledger path = false := processed_after_del
  rw [add_documents_success h0 hfs hdocs hins hfl hld]
  exact ⟨rfl, rfl, rfl,
    ⟨⟨env.md5 fi.bytes, (process_documents env path).length, toString fi.mtime,
        fi.bytes.length⟩,
      getEntry_setEntry _ _ _, rfl, fun h => h.symm⟩⟩

/-- Claim C4, witness for the amended theorem at a concrete forced reindex. -/
theorem C4_witness :
    (st4.ledger = .stored m4 ∧
      getEntry m4.processed_files (env0.abspath "doc.pdf") = some oldEntry ∧
      env0.fs "doc.pdf" = some fi0 ∧
      process_documents env0 "doc.pdf" ≠ [] ∧
      oldEntry.processed_date = toString fi0.mtime) ∧
    ((force_reindex env0 st4 "doc.pdf").2.1 = true ∧
      (force_reindex env0 st4 "doc.pdf").2.2 =
        (process_documents env0 "doc.pdf").map (·.text) ∧
      (force_reindex env0 st4 "doc.pdf").1.store =
        st4.store ++ docRows env0 "doc.pdf" ∧
      ∃ newE, getEntry
          (load_index_metadata (force_reindex env0 st4 "doc.pdf").1.ledger).processed_files
          (env0.abspath "doc.pdf") = some newE ∧
        newE.processed_date = toString fi0.mtime ∧
        (oldEntry.processed_date = toString fi0.mtime →
          newE.processed_date = oldEntry.processed_date)) :=
  ⟨⟨rfl, by decide, rfl, by decide, rfl⟩,
    C4_force_reindex_same_mtime env0 st4 "doc.pdf" fi0 m4 oldEntry rfl (by decide)
      rfl (by decide) rfl rfl rfl⟩

/-- Claim C5: when the normalised text is longer than the chunk size, every
chunk produced by `chunk_text` has length at most `cs` and every chunk other
than the last has length at least `cs / 2`. -/
theorem C5_chunk_length_bounds (text : List Char) (cs ov : Nat)
    (h : cs < (normalizeText text).length) :
    ∀ i c, (chunk_text text cs ov).get? i = some c →
      c.length ≤ cs ∧
      (i + 1 < (chunk_text text cs ov).length → cs / 2 ≤ c.length) :=
  chunk_text_bounds h

/-- Claim C5, witness on a concrete over-long text. -/
theorem C5_witness :
    4 < (normalizeText "ab cd ef".data).length ∧
    (∀ i c, (chunk_text "ab cd ef".data 4 1).get? i = some c →
      c.length ≤ 4 ∧
      (i + 1 < (chunk_text "ab cd ef".data 4 1).length → 4 / 2 ≤ c.length)) :=
  ⟨by decide, C5_chunk_length_bounds "ab cd ef".data 4 1 (by decide)⟩

/-- Claim C6: when the normalised, trimmed text fits in one chunk,
`chunk_text` returns exactly the one-element list holding it. -/
theorem C6_single_chunk (text : List Char) (cs ov : Nat)
    (h : (normalizeText text).length ≤ cs) :
    chunk_text text cs ov = [normalizeText text] :=
  chunk_text_eq_single h

/-- Claim C6, witness on a concrete short text. -/
theorem C6_witness :
    (normalizeText "hello world".data).length ≤ 1000 ∧
    chunk_text "hello world".data 1000 200 = [normalizeText "hello world".data] :=
  ⟨by decide, C6_single_chunk "hello world".data 1000 200 (by decide)⟩

/-- Claim C7: a missing or unparseable ledger file loads as the empty
metadata, and with such a ledger no path is considered processed. -/
theorem C7_corrupt_ledger_is_empty (lf : LedgerFile)
    (h : lf = .missing ∨ lf = .corrupt) :
    load_index_metadata lf = ⟨[], none⟩ ∧
    ∀ (env : Env) (path : String), is_file_processed env lf path = false := by
  have hm : load_index_metadata lf = ⟨[], none⟩ := by
    rcases h with h | h <;> (subst h; rfl)
  refine ⟨hm, fun env path => ?_⟩
  simp only [is_file_processed, hm]
  split
  · rfl
  · rfl

/-- Claim C7, witness at the missing ledger file. -/
theorem C7_witness :
    (LedgerFile.missing = .missing ∨ LedgerFile.missing = .corrupt) ∧
    (load_index_metadata .missing = ⟨[], none⟩ ∧
      ∀ (env : Env) (path : String),
        is_file_processed env .missing path = false) :=
  ⟨Or.inl rfl, C7_corrupt_ledger_is_empty .missing (Or.inl rfl)⟩

/-- Claim C8: a path that does not exist on the filesystem is never
considered processed, even when the ledger still holds an entry for its
absolute path. -/
theorem C8_missing_file_not_processed (env : Env) (lf : LedgerFile)
    (path : String) (entry : FileEntry)
    (_hentry : getEntry (load_index_metadata lf).processed_files
      (env.abspath path) = some entry)
    (hfs : env.fs path = none) :
    is_file_processed env lf path = false := by
  simp only [is_file_processed, hfs]
  rfl

/-- Claim C8, witness: the ledger still maps `doc.pdf`, but the file is gone. -/
theorem C8_witness :
    (getEntry (load_index_metadata (.stored m4)).processed_files
        (envNoFile.abspath "doc.pdf") = some oldEntry ∧
      envNoFile.fs "doc.pdf" = none) ∧
    is_file_processed envNoFile (.stored m4) "doc.pdf" = false :=
  ⟨⟨by decide, rfl⟩,
    C8_missing_file_not_processed envNoFile (.stored m4) "doc.pdf" oldEntry
      (by decide) rfl⟩

/-- Claim C9, counterexample: kept chunks on a page can never have
non-contiguous indices — with chunk size 1000 every chunk except the last is
at least 500 characters long after stripping, so whenever a later chunk of a
page survives the 50-character filter every earlier chunk does too. -/
theorem C9_counterexample :
    ¬ ∃ (t : List Char) (i j : Nat) (ci cj : List Char),
      i < j ∧ (chunk_text t 1000 200).get? i = some ci ∧
        (chunk_text t 1000 200).get? j = some cj ∧
        50 < (stripList cj).length ∧ ¬ 50 < (stripList ci).length := by
  rintro ⟨t, i, j, ci, cj, hij, hi, hj, _, hnot⟩
  exact hnot (chunk_kept_mono hij hi hj)

/-- Claim C9, amended: every record produced by `process_documents` carries
as `chunk_id` the position of its chunk inside its own page's `chunk_text`
output, restarting at 0 on each page (so `chunk_id` is not unique across a
document); but the kept chunks of a page always occupy the contiguous
positions starting at 0, because only a page's final chunk can fall below
the 50-character filter. -/
theorem C9_chunk_id_per_page :
    (∀ docs : List PageDoc, process_pages docs = docs.flatMap fun d =>
      (((chunk_text d.text 1000 200).enum).filter
        (fun p => decide (50 < (stripList p.2).length))).map
        fun p => ChunkRec.mk p.2 d.source d.page_num p.1) ∧
    (∀ (docs : List PageDoc) (r : ChunkRec), r ∈ process_pages docs →
      ∃ d ∈ docs, (chunk_text d.text 1000 200).get? r.chunk_id = some r.text ∧
        r.source = d.source ∧ r.page_num = d.page_num ∧
        50 < (stripList r.text).length) ∧
    (¬ ∃ (t : List Char) (i j : Nat) (ci cj : List Char),
      i < j ∧ (chunk_text t 1000 200).get? i = some ci ∧
        (chunk_text t 1000 200).get? j = some cj ∧
        50 < (stripList cj).length ∧ ¬ 50 < (stripList ci).length) := by
  refine ⟨process_pages_eq, fun docs r hr => process_pages_chunk_id hr, ?_⟩
  rintro ⟨t, i, j, ci, cj, hij, hi, hj, _, hnot⟩
  exact hnot (chunk_kept_mono hij hi hj)

/-- Claim C9, witness: a concrete one-page document whose single record has
`chunk_id` 0, the position of its chunk in the page's chunk list. -/
theorem C9_witness :
    (⟨pageText60, "p", 1, 0⟩ : ChunkRec) ∈ process_pages [⟨pageText60, "p", 1⟩] ∧
    ∃ d ∈ [(⟨pageText60, "p", 1⟩ : PageDoc)],
      (chunk_text d.text 1000 200).get? 0 = some pageText60 ∧
        "p" = d.source ∧ 1 = d.page_num ∧ 50 < (stripList pageText60).length :=
  ⟨by decide,
    C9_chunk_id_per_page.2.1 [⟨pageText60, "p", 1⟩] ⟨pageText60, "p", 1, 0⟩
      (by decide)⟩

/-- Claim C10: when the query embedding fails, the search is still executed
with the zero placeholder vector and the caller receives the ordinary
formatted result list — exactly what a successful query whose embedding had
returned the zero vector would produce. -/
theorem C10_query_embedding_failure_soft (env : Env) (st : DBState)
    (q : List Char) (k : Nat) (err : String)
    (he : env.embedQuery q = .error err)
    (hs : env.search_fails = false) :
    search_similar_documents env st q k =
      (env.search st.store (List.replicate 768 0) k).map
        (fun h => ⟨h.text, h.source, h.page_num, h.chunk_id, h.distance⟩) ∧
    search_similar_documents env st q k =
      search_similar_documents
        { env with embedQuery := fun _ => .ok (List.replicate 768 0) } st q k := by
  constructor <;>
    simp [search_similar_documents, generate_query_embedding, he, hs]

/-- Claim C10, witness at a concrete failing query embedding. -/
theorem C10_witness :
    (envQueryFail.embedQuery "q".data = .error "qboom" ∧
      envQueryFail.search_fails = false) ∧
    (search_similar_documents envQueryFail dbInit "q".data 5 =
        (envQueryFail.search dbInit.store (List.replicate 768 0) 5).map
          (fun h => ⟨h.text, h.source, h.page_num, h.chunk_id, h.distance⟩) ∧
      search_similar_documents envQueryFail dbInit "q".data 5 =
        search_similar_documents
          { envQueryFail with embedQuery := fun _ => .ok (List.replicate 768 0) }
          dbInit "q".data 5) :=
  ⟨⟨rfl, rfl⟩,
    C10_query_embedding_failure_soft envQueryFail dbInit "q".data 5 "qboom" rfl rfl⟩
